import Mathlib

/-!
Verification of the node layer of the sigourney modular synthesizer
(`audio/proc.go`): per-node sample-generation algorithms and the
`Dup`/`Output` fan-out mechanism.

Samples are modelled as exact rationals (`ℚ`).  External collaborators —
the base-2 exponential `fast.Exp2`, the sine helper `fast.Sin`, the
π constant, the random generator `rand.Float64`, the trigger edge
classifier, and the configuration constants `waveHz` — are passed as
parameters (functions/streams/values), since only their contracts are in
scope.  Buffers are lists of samples; the per-sample loops of the Go code
become structural recursions carrying the same loop state.
-/

namespace Sigourney

/-- A single audio sample, modelled as an exact rational amplitude. -/
abbrev Sample := ℚ

/-- `sampleToHz` from proc.go: `440 * fast.Exp2(float64(s)*10)`.
The external helper `fast.Exp2` is the parameter `exp2`. -/
def sampleToHz (exp2 : ℚ → ℚ) (s : Sample) : ℚ := 440 * exp2 (s * 10)

/-- Loop-local state of the oscillator `Process` loops: phase accumulator
`p`, current `hz`, and `lastS` (set from `s[0]` before the loop and never
written inside the loop, exactly as in the Go code). -/
structure OscLoopState where
  p : ℚ
  hz : ℚ
  lastS : ℚ
deriving Repr, DecidableEq

/-- One iteration of the `Square.Process` loop (proc.go lines 49–65):
trigger resets the phase, a pitch value differing from `lastS` recomputes
`hz`, the phase advances by `hz` and wraps once past `waveHz`, and the
output is `-1` above `waveHz/2`, `+1` otherwise. -/
def squareStep (waveHz : ℚ) (exp2 : ℚ → ℚ) (st : OscLoopState) (sIn : Sample)
    (tr : Bool) : OscLoopState × Sample :=
  let p0 := if tr then 0 else st.p
  let hz := if sIn ≠ st.lastS then sampleToHz exp2 sIn else st.hz
  let p1 := p0 + hz
  let p2 := if p1 > waveHz then p1 - waveHz else p1
  let out : Sample := if p2 > waveHz / 2 then -1 else 1
  (⟨p2, hz, st.lastS⟩, out)

/-- The `Square.Process` loop over a buffer of (pitch sample, trigger
classification) pairs, returning the final loop state and the output
buffer. -/
def squareGo (waveHz : ℚ) (exp2 : ℚ → ℚ) :
    OscLoopState → List (Sample × Bool) → OscLoopState × List Sample
  | st, [] => (st, [])
  | st, (sIn, tr) :: rest =>
      let r1 := squareStep waveHz exp2 st sIn tr
      let r2 := squareGo waveHz exp2 r1.1 rest
      (r2.1, r1.2 :: r2.2)

/-- `Square.Process` from proc.go: the pitch input has filled the buffer
`pitch`; `trig` is the trigger classification of the `syn` input's buffer.
Initial `hz` and `lastS` come from `s[0]`; the persistent state is the
phase accumulator `pos`, returned updated together with the output
buffer. -/
def Square.Process (waveHz : ℚ) (exp2 : ℚ → ℚ) (pos : ℚ)
    (pitch : List Sample) (trig : List Bool) : ℚ × List Sample :=
  match pitch with
  | [] => (pos, [])
  | s0 :: _ =>
      let r := squareGo waveHz exp2 ⟨pos, sampleToHz exp2 s0, s0⟩ (pitch.zip trig)
      (r.1.p, r.2)

/-- The per-sample trace of the `hz` value the `Square.Process` loop uses
at each sample (the value of `hz` when `p += hz` runs). -/
def squareHzGo (waveHz : ℚ) (exp2 : ℚ → ℚ) :
    OscLoopState → List (Sample × Bool) → List ℚ
  | _, [] => []
  | st, (sIn, tr) :: rest =>
      let r1 := squareStep waveHz exp2 st sIn tr
      r1.1.hz :: squareHzGo waveHz exp2 r1.1 rest

/-- The `hz` values used by `Square.Process` at each sample of a buffer. -/
def Square.hzTrace (waveHz : ℚ) (exp2 : ℚ → ℚ) (pos : ℚ)
    (pitch : List Sample) (trig : List Bool) : List ℚ :=
  match pitch with
  | [] => []
  | s0 :: _ => squareHzGo waveHz exp2 ⟨pos, sampleToHz exp2 s0, s0⟩ (pitch.zip trig)

/-- One iteration of the `Sin.Process` loop (proc.go lines 88–100):
trigger resets the phase, the `hz` update is identical to the square's,
the output is `fast.Sin(p * 2 * math.Pi)` (externals `sinF` and `piQ`),
then the phase advances by `hz / waveHz` and wraps once past 100. -/
def sinStep (waveHz : ℚ) (exp2 sinF : ℚ → ℚ) (piQ : ℚ) (st : OscLoopState)
    (sIn : Sample) (tr : Bool) : OscLoopState × Sample :=
  let p0 := if tr then 0 else st.p
  let hz := if sIn ≠ st.lastS then sampleToHz exp2 sIn else st.hz
  let out : Sample := sinF (p0 * 2 * piQ)
  let p1 := p0 + hz / waveHz
  let p2 := if p1 > 100 then p1 - 100 else p1
  (⟨p2, hz, st.lastS⟩, out)

/-- The `Sin.Process` loop over a buffer of (pitch, trigger) pairs. -/
def sinGo (waveHz : ℚ) (exp2 sinF : ℚ → ℚ) (piQ : ℚ) :
    OscLoopState → List (Sample × Bool) → OscLoopState × List Sample
  | st, [] => (st, [])
  | st, (sIn, tr) :: rest =>
      let r1 := sinStep waveHz exp2 sinF piQ st sIn tr
      let r2 := sinGo waveHz exp2 sinF piQ r1.1 rest
      (r2.1, r1.2 :: r2.2)

/-- `Sin.Process` from proc.go, analogous to `Square.Process`. -/
def Sin.Process (waveHz : ℚ) (exp2 sinF : ℚ → ℚ) (piQ : ℚ) (pos : ℚ)
    (pitch : List Sample) (trig : List Bool) : ℚ × List Sample :=
  match pitch with
  | [] => (pos, [])
  | s0 :: _ =>
      let r := sinGo waveHz exp2 sinF piQ ⟨pos, sampleToHz exp2 s0, s0⟩
        (pitch.zip trig)
      (r.1.p, r.2)

/-- The per-sample trace of the `hz` value the `Sin.Process` loop uses at
each sample. -/
def sinHzGo (waveHz : ℚ) (exp2 sinF : ℚ → ℚ) (piQ : ℚ) :
    OscLoopState → List (Sample × Bool) → List ℚ
  | _, [] => []
  | st, (sIn, tr) :: rest =>
      let r1 := sinStep waveHz exp2 sinF piQ st sIn tr
      r1.1.hz :: sinHzGo waveHz exp2 sinF piQ r1.1 rest

/-- The `hz` values used by `Sin.Process` at each sample of a buffer. -/
def Sin.hzTrace (waveHz : ℚ) (exp2 sinF : ℚ → ℚ) (piQ : ℚ) (pos : ℚ)
    (pitch : List Sample) (trig : List Bool) : List ℚ :=
  match pitch with
  | [] => []
  | s0 :: _ =>
      sinHzGo waveHz exp2 sinF piQ ⟨pos, sampleToHz exp2 s0, s0⟩ (pitch.zip trig)

/-- Reference sequence of per-sample `hz` values in the oscillators, as
the code computes them: `hz` at a sample is recomputed from the pitch when
the pitch differs from the FIRST sample `s0` of the current buffer, and
otherwise is the `hz` of the previous sample (starting from
`sampleToHz s0`).  This follows the code: `lastS` is assigned `s[0]` once
before the loop and never reassigned. -/
def hzFromFirstSpec (exp2 : ℚ → ℚ) (s0 : Sample) : ℚ → List Sample → List ℚ
  | _, [] => []
  | hzPrev, s :: rest =>
      let h := if s ≠ s0 then sampleToHz exp2 s else hzPrev
      h :: hzFromFirstSpec exp2 s0 h rest

/-- `Mul.Process` from proc.go: the `a` input fills the buffer `s`, the
`b` input fills `m`, then `s[i] *= m[i]`. -/
def Mul.Process (s m : List Sample) : List Sample :=
  s.zipWith (fun a b => a * b) m

/-- `Sum.Process` from proc.go: the `a` input fills the buffer `buf`, the
`b` input fills `b`, then `buf[i] += b[i]`. -/
def Sum.Process (buf b : List Sample) : List Sample :=
  buf.zipWith (fun x y => x + y) b

/-- One sample of `Clip.Process` (proc.go lines 205–211): values above 1
become 1, values below −1 become −1, in-range values pass through. -/
def clipSample (v : Sample) : Sample :=
  if v > 1 then 1 else if v < -1 then -1 else v

/-- `Clip.Process` from proc.go, applied to the buffer the `in` input
filled. -/
def Clip.Process (s : List Sample) : List Sample := s.map clipSample

/-- `Value.Process` from proc.go: fill the whole buffer with the constant. -/
def Value.Process (v : Sample) (s : List Sample) : List Sample :=
  s.map (fun _ => v)

/-- Persistent state of the envelope node: level `v` and attack flag `up`.
(The Go struct also declares a field `wasLow`, which `Env.Process` never
reads or writes; it is omitted.) -/
structure EnvState where
  v : Sample
  up : Bool
deriving Repr, DecidableEq

/-- The phase-transition and level-update part of one `Env.Process`
iteration (proc.go lines 166–180), before clamping: when not attacking, a
trigger or the gate exceeding the level enters attack, else a level above
the gate decays by `1/(dec*waveHz*10)` when the decay control is positive;
when attacking (including freshly entered), the level rises by
`1/(att*waveHz*10)` when the attack control is positive. -/
def envMove (waveHz : ℚ) (st : EnvState) (gate att dec : ℚ) (tr : Bool) :
    EnvState :=
  let s1 : EnvState :=
    if !st.up then
      if tr || st.v < gate then ⟨st.v, true⟩
      else if st.v > gate then
        if dec > 0 then ⟨st.v - 1 / (dec * waveHz * 10), st.up⟩ else st
      else st
    else st
  if s1.up then
    if att > 0 then ⟨s1.v + 1 / (att * waveHz * 10), s1.up⟩ else s1
  else s1

/-- The clamping part of one `Env.Process` iteration (proc.go lines
181–186): a level above 1 becomes exactly 1 and leaves attack; a level
below 0 becomes 0. -/
def envClamp (st : EnvState) : EnvState :=
  if st.v > 1 then ⟨1, false⟩
  else if st.v < 0 then ⟨0, st.up⟩
  else st

/-- One full iteration of the `Env.Process` loop: update, clamp, and emit
the clamped level as the output sample. -/
def envStep (waveHz : ℚ) (st : EnvState) (gate att dec : ℚ) (tr : Bool) :
    EnvState × Sample :=
  let s2 := envClamp (envMove waveHz st gate att dec tr)
  (s2, s2.v)

/-- The `Env.Process` loop over per-sample inputs
`(gate, att, dec, trigger)`. -/
def envGo (waveHz : ℚ) :
    EnvState → List (ℚ × ℚ × ℚ × Bool) → EnvState × List Sample
  | st, [] => (st, [])
  | st, (gate, att, dec, tr) :: rest =>
      let r1 := envStep waveHz st gate att dec tr
      let r2 := envGo waveHz r1.1 rest
      (r2.1, r1.2 :: r2.2)

/-- One iteration of the `Rand.Process` loop (proc.go lines 241–246): a
trigger draws `v = min + r*(max-min)` where `r` models this sample's
`rand.Float64()` value; otherwise the latched value is held.  The output
is the latched value either way. -/
def randStep (st : Sample) (minV maxV r : ℚ) (tr : Bool) : Sample × Sample :=
  let v := if tr then minV + r * (maxV - minV) else st
  (v, v)

/-- The `Rand.Process` loop over per-sample inputs
`(min, max, random draw, trigger)`, returning the final latched value and
the output buffer. -/
def randGo : Sample → List (ℚ × ℚ × ℚ × Bool) → Sample × List Sample
  | st, [] => (st, [])
  | st, (minV, maxV, r, tr) :: rest =>
      let r1 := randStep st minV maxV r tr
      let r2 := randGo r1.1 rest
      (r2.1, r1.2 :: r2.2)

/-- State of a `Dup` fan-out node, generic over the state type `σ` of the
upstream source: the source's own state (the Go `Dup` holds a reference to
the source, whose state mutates when its `Process` runs), the registered
`Output` handles (as identifiers), the scratch buffer `buf`, and the
per-tick `done` flag. -/
structure DupState (σ : Type) where
  srcState : σ
  outs : List Nat
  buf : List Sample
  done : Bool

/-- `Dup.Tick` from proc.go: clear the per-tick evaluated flag. -/
def Dup.Tick {σ : Type} (d : DupState σ) : DupState σ :=
  ⟨d.srcState, d.outs, d.buf, false⟩

/-- Go's `copy(dst, src)` on sample slices: overwrite a prefix of `dst`
with `min |dst| |src|` elements of `src`, returning the new contents of
`dst`. -/
def goCopy (dst src : List Sample) : List Sample :=
  src.take dst.length ++ dst.drop src.length

/-- `Output.Process` from proc.go, acting on the shared `Dup` state.  The
upstream `Process` is the parameter `src`, a state-and-buffer transformer.
With exactly one registered `Output`, the first call this tick evaluates
the source directly into the caller's buffer `p`, later calls leave `p`
untouched.  Otherwise the first call evaluates the source into the scratch
buffer, and every call copies the scratch buffer into `p`. -/
def Output.Process {σ : Type} (src : σ → List Sample → σ × List Sample)
    (d : DupState σ) (p : List Sample) : DupState σ × List Sample :=
  if d.outs.length = 1 then
    if !d.done then
      let r := src d.srcState p
      (⟨r.1, d.outs, d.buf, true⟩, r.2)
    else
      (d, p)
  else
    let d1 : DupState σ :=
      if !d.done then
        let r := src d.srcState d.buf
        ⟨r.1, d.outs, r.2, true⟩
      else d
    (d1, goCopy p d1.buf)

/-- A sequence of `Output.Process` calls within one tick: each element of
`calls` is the caller's buffer for one call; the result pairs the final
`Dup` state with the buffer contents each caller ends up holding. -/
def processCalls {σ : Type} (src : σ → List Sample → σ × List Sample)
    (d : DupState σ) : List (List Sample) → DupState σ × List (List Sample)
  | [] => (d, [])
  | p :: ps =>
      let r1 := Output.Process src d p
      let r2 := processCalls src r1.1 ps
      (r2.1, r1.2 :: r2.2)

/-- The removal loop of `Output.Close` (proc.go lines 299–306): scan for
the first handle equal to `o`, shift the rest down, and truncate; a list
holding no `o` is returned unchanged. -/
def removeFirst (o : Nat) : List Nat → List Nat
  | [] => []
  | x :: xs => if x = o then xs else x :: removeFirst o xs

/-- `Output.Close` from proc.go: deregister the handle `o` from its
`Dup`'s consumer list. -/
def Output.Close {σ : Type} (d : DupState σ) (o : Nat) : DupState σ :=
  ⟨d.srcState, removeFirst o d.outs, d.buf, d.done⟩

/-- A concrete upstream source used to instantiate the fan-out theorems:
its state counts how many times its `Process` has run, and its output adds
one to every sample of the buffer it is handed. -/
def incSrc : Nat → List Sample → Nat × List Sample :=
  fun n b => (n + 1, b.map (fun x => x + 1))

/- ------------------------------------------------------------------ -/
/- Helper lemmas -/
/- ------------------------------------------------------------------ -/

theorem clipSample_range (v : Sample) : -1 ≤ clipSample v ∧ clipSample v ≤ 1 := by
  unfold clipSample
  split_ifs with h1 h2 <;> constructor <;> linarith

theorem sumProcess_neg_self (a : List Sample) :
    Sum.Process a (a.map (fun x => -x)) = List.replicate a.length 0 := by
  induction a with
  | nil => rfl
  | cons x xs ih =>
      simp only [Sum.Process, List.map_cons, List.zipWith_cons_cons,
        List.length_cons, List.replicate_succ] at ih ⊢
      rw [ih]
      norm_num

theorem mulProcess_ones (a : List Sample) :
    Mul.Process a (List.replicate a.length 1) = a := by
  induction a with
  | nil => rfl
  | cons x xs ih =>
      simp only [Mul.Process, List.length_cons, List.replicate_succ,
        List.zipWith_cons_cons] at ih ⊢
      rw [ih]
      norm_num

theorem squareStep_out_pm (waveHz : ℚ) (exp2 : ℚ → ℚ) (st : OscLoopState)
    (sIn : Sample) (tr : Bool) :
    (squareStep waveHz exp2 st sIn tr).2 = 1 ∨
      (squareStep waveHz exp2 st sIn tr).2 = -1 := by
  unfold squareStep
  dsimp only
  split_ifs <;> simp

theorem squareGo_out_pm (waveHz : ℚ) (exp2 : ℚ → ℚ) :
    ∀ (l : List (Sample × Bool)) (st : OscLoopState) (y : Sample),
      y ∈ (squareGo waveHz exp2 st l).2 → y = 1 ∨ y = -1 := by
  intro l
  induction l with
  | nil => intro st y hy; simp [squareGo] at hy
  | cons hd tl ih =>
      intro st y hy
      obtain ⟨sIn, tr⟩ := hd
      simp only [squareGo, List.mem_cons] at hy
      rcases hy with hy | hy
      · rw [hy]; exact squareStep_out_pm waveHz exp2 st sIn tr
      · exact ih _ y hy

theorem square_process_out_pm (waveHz : ℚ) (exp2 : ℚ → ℚ) (pos : ℚ)
    (pitch : List Sample) (trig : List Bool) (y : Sample)
    (hy : y ∈ (Square.Process waveHz exp2 pos pitch trig).2) :
    y = 1 ∨ y = -1 := by
  match pitch with
  | [] => simp [Square.Process] at hy
  | s0 :: rest => exact squareGo_out_pm waveHz exp2 _ _ y hy

theorem envClamp_range (st : EnvState) :
    0 ≤ (envClamp st).v ∧ (envClamp st).v ≤ 1 := by
  unfold envClamp
  split_ifs with h1 h2
  · exact ⟨by norm_num, by norm_num⟩
  · exact ⟨le_refl 0, by norm_num⟩
  · exact ⟨by linarith, by linarith⟩

theorem envGo_range (waveHz : ℚ) :
    ∀ (ins : List (ℚ × ℚ × ℚ × Bool)) (st : EnvState),
      ∀ y ∈ (envGo waveHz st ins).2, 0 ≤ y ∧ y ≤ 1 := by
  intro ins
  induction ins with
  | nil => intro st y hy; simp [envGo] at hy
  | cons hd tl ih =>
      intro st y hy
      obtain ⟨gate, att, dec, tr⟩ := hd
      simp only [envGo, List.mem_cons] at hy
      rcases hy with hy | hy
      · rw [hy]; exact envClamp_range _
      · exact ih _ y hy

theorem goCopy_length_eq (p b : List Sample) (h : p.length = b.length) :
    goCopy p b = b := by
  have hd : p.drop b.length = [] := List.drop_eq_nil_of_le h.le
  simp [goCopy, h, hd]

theorem outputProcess_done_multi {σ : Type}
    (src : σ → List Sample → σ × List Sample) (d : DupState σ)
    (p : List Sample) (hdone : d.done = true) (hm : ¬ d.outs.length = 1)
    (hp : p.length = d.buf.length) :
    Output.Process src d p = (d, d.buf) := by
  simp [Output.Process, hm, hdone, goCopy_length_eq p d.buf hp]

theorem processCalls_done_multi {σ : Type}
    (src : σ → List Sample → σ × List Sample) :
    ∀ (calls : List (List Sample)) (d : DupState σ), d.done = true →
      ¬ d.outs.length = 1 → (∀ q ∈ calls, q.length = d.buf.length) →
      processCalls src d calls = (d, List.replicate calls.length d.buf) := by
  intro calls
  induction calls with
  | nil => intro d _ _ _; rfl
  | cons p ps ih =>
      intro d hdone hm hq
      simp only [processCalls]
      rw [outputProcess_done_multi src d p hdone hm
        (hq p (List.mem_cons_self _ _))]
      rw [ih d hdone hm (fun q hqq => hq q (List.mem_cons_of_mem _ hqq))]
      simp [List.replicate_succ]

theorem outputProcess_fresh_multi {σ : Type}
    (src : σ → List Sample → σ × List Sample)
    (hlen : ∀ s b, (src s b).2.length = b.length) (d : DupState σ)
    (p : List Sample) (hdone : d.done = false) (hm : ¬ d.outs.length = 1)
    (hp : p.length = d.buf.length) :
    Output.Process src d p =
      (⟨(src d.srcState d.buf).1, d.outs, (src d.srcState d.buf).2, true⟩,
        (src d.srcState d.buf).2) := by
  have h2 : p.length = ((src d.srcState d.buf).2).length := by
    rw [hlen]; exact hp
  simp [Output.Process, hm, hdone, goCopy_length_eq p _ h2]

theorem processCalls_fresh_multi {σ : Type}
    (src : σ → List Sample → σ × List Sample)
    (hlen : ∀ s b, (src s b).2.length = b.length) (d : DupState σ)
    (hdone : d.done = false) (hm : 1 < d.outs.length) (p : List Sample)
    (ps : List (List Sample)) (hp : p.length = d.buf.length)
    (hps : ∀ q ∈ ps, q.length = d.buf.length) :
    processCalls src d (p :: ps) =
      (⟨(src d.srcState d.buf).1, d.outs, (src d.srcState d.buf).2, true⟩,
        List.replicate (ps.length + 1) (src d.srcState d.buf).2) := by
  have hm' : ¬ d.outs.length = 1 := by omega
  simp only [processCalls]
  rw [outputProcess_fresh_multi src hlen d p hdone hm' hp]
  rw [processCalls_done_multi src ps
    ⟨(src d.srcState d.buf).1, d.outs, (src d.srcState d.buf).2, true⟩ rfl hm'
    (fun q hqq => by
      show q.length = ((src d.srcState d.buf).2).length
      rw [hlen]; exact hps q hqq)]
  simp [List.replicate_succ]

theorem outputProcess_done_single {σ : Type}
    (src : σ → List Sample → σ × List Sample) (d : DupState σ)
    (p : List Sample) (hdone : d.done = true) (hm : d.outs.length = 1) :
    Output.Process src d p = (d, p) := by
  simp [Output.Process, hm, hdone]

theorem processCalls_done_single {σ : Type}
    (src : σ → List Sample → σ × List Sample) :
    ∀ (calls : List (List Sample)) (d : DupState σ), d.done = true →
      d.outs.length = 1 → processCalls src d calls = (d, calls) := by
  intro calls
  induction calls with
  | nil => intro d _ _; rfl
  | cons p ps ih =>
      intro d hdone hm
      simp only [processCalls]
      rw [outputProcess_done_single src d p hdone hm, ih d hdone hm]

theorem processCalls_fresh_single {σ : Type}
    (src : σ → List Sample → σ × List Sample) (d : DupState σ)
    (hdone : d.done = false) (hm : d.outs.length = 1) (p : List Sample)
    (ps : List (List Sample)) :
    processCalls src d (p :: ps) =
      (⟨(src d.srcState p).1, d.outs, d.buf, true⟩,
        (src d.srcState p).2 :: ps) := by
  simp only [processCalls]
  have h1 : Output.Process src d p =
      (⟨(src d.srcState p).1, d.outs, d.buf, true⟩, (src d.srcState p).2) := by
    simp [Output.Process, hm, hdone]
  rw [h1, processCalls_done_single src ps
    ⟨(src d.srcState p).1, d.outs, d.buf, true⟩ rfl hm]

theorem removeFirst_length (o : Nat) :
    ∀ l : List Nat, o ∈ l → (removeFirst o l).length + 1 = l.length := by
  intro l
  induction l with
  | nil => intro h; simp at h
  | cons x xs ih =>
      intro h
      by_cases hx : x = o
      · simp [removeFirst, hx]
      · have hmem : o ∈ xs := by
          rcases List.mem_cons.mp h with h1 | h1
          · exact absurd h1.symm hx
          · exact h1
        simp only [removeFirst, if_neg hx, List.length_cons]
        rw [← ih hmem]

theorem removeFirst_not_mem (o : Nat) :
    ∀ l : List Nat, l.Nodup → o ∉ removeFirst o l := by
  intro l
  induction l with
  | nil => intro _; simp [removeFirst]
  | cons x xs ih =>
      intro hnd
      obtain ⟨hx, hxs⟩ := List.nodup_cons.mp hnd
      by_cases hxo : x = o
      · rw [removeFirst, if_pos hxo]
        rw [hxo] at hx
        exact hx
      · rw [removeFirst, if_neg hxo]
        intro hmem
        rcases List.mem_cons.mp hmem with h1 | h1
        · exact hxo h1.symm
        · exact ih hxs h1

theorem removeFirst_mem_iff (x o : Nat) (hxo : x ≠ o) :
    ∀ l : List Nat, (x ∈ removeFirst o l ↔ x ∈ l) := by
  intro l
  induction l with
  | nil => simp [removeFirst]
  | cons y ys ih =>
      by_cases hyo : y = o
      · rw [removeFirst, if_pos hyo]
        constructor
        · intro h; exact List.mem_cons_of_mem _ h
        · intro h
          rcases List.mem_cons.mp h with h1 | h1
          · exact absurd (h1.trans hyo) hxo
          · exact h1
      · rw [removeFirst, if_neg hyo]
        simp only [List.mem_cons, ih]

theorem randGo_no_trigger (st : Sample) :
    ∀ ins : List (ℚ × ℚ × ℚ × Bool), (∀ x ∈ ins, x.2.2.2 = false) →
      randGo st ins = (st, List.replicate ins.length st) := by
  intro ins
  induction ins with
  | nil => intro _; rfl
  | cons hd tl ih =>
      intro hall
      obtain ⟨a, b, c, tr⟩ := hd
      have htr : tr = false := hall (a, b, c, tr) (List.mem_cons_self _ _)
      subst htr
      simp only [randGo, randStep, if_neg (by simp : ¬ (false = true))]
      rw [ih (fun x hx => hall x (List.mem_cons_of_mem _ hx))]
      simp [List.replicate_succ]

theorem squareHzGo_spec (waveHz : ℚ) (exp2 : ℚ → ℚ) (s0 : Sample) :
    ∀ (lz : List (Sample × Bool)) (st : OscLoopState), st.lastS = s0 →
      squareHzGo waveHz exp2 st lz =
        hzFromFirstSpec exp2 s0 st.hz (lz.map Prod.fst) := by
  intro lz
  induction lz with
  | nil => intro st _; rfl
  | cons hd tl ih =>
      intro st hst
      obtain ⟨s, tr⟩ := hd
      have hlast : (squareStep waveHz exp2 st s tr).1.lastS = s0 := by
        simp [squareStep, hst]
      have hhz : (squareStep waveHz exp2 st s tr).1.hz =
          if s ≠ s0 then sampleToHz exp2 s else st.hz := by
        simp [squareStep, hst]
      simp only [squareHzGo, List.map_cons, hzFromFirstSpec]
      rw [ih (squareStep waveHz exp2 st s tr).1 hlast, hhz]

theorem sinHzGo_spec (waveHz : ℚ) (exp2 sinF : ℚ → ℚ) (piQ : ℚ) (s0 : Sample) :
    ∀ (lz : List (Sample × Bool)) (st : OscLoopState), st.lastS = s0 →
      sinHzGo waveHz exp2 sinF piQ st lz =
        hzFromFirstSpec exp2 s0 st.hz (lz.map Prod.fst) := by
  intro lz
  induction lz with
  | nil => intro st _; rfl
  | cons hd tl ih =>
      intro st hst
      obtain ⟨s, tr⟩ := hd
      have hlast : (sinStep waveHz exp2 sinF piQ st s tr).1.lastS = s0 := by
        simp [sinStep, hst]
      have hhz : (sinStep waveHz exp2 sinF piQ st s tr).1.hz =
          if s ≠ s0 then sampleToHz exp2 s else st.hz := by
        simp [sinStep, hst]
      simp only [sinHzGo, List.map_cons, hzFromFirstSpec]
      rw [ih (sinStep waveHz exp2 sinF piQ st s tr).1 hlast, hhz]

theorem zip_replicate_same {α β : Type} (a : α) (b : β) :
    ∀ n : ℕ, (List.replicate n a).zip (List.replicate n b) =
      List.replicate n (a, b) := by
  intro n
  induction n with
  | zero => rfl
  | succ n ih => simp [List.replicate_succ, ih]

theorem squareGo_const_closed {waveHz hz : ℚ} {exp2 : ℚ → ℚ} {c : Sample}
    {N : ℕ} (h0 : 0 < hz) (hN : 1 ≤ N)
    (hw : waveHz = (N : ℚ) * hz) :
    ∀ (L j : ℕ) (p : ℚ), j < N →
      (p = (j : ℚ) * hz ∨ (j = 0 ∧ p = (N : ℚ) * hz)) →
      ∃ p2 : ℚ,
        (p2 = (((j + L) % N : ℕ) : ℚ) * hz ∨
          ((j + L) % N = 0 ∧ p2 = (N : ℚ) * hz)) ∧
        squareGo waveHz exp2 ⟨p, hz, c⟩ (List.replicate L (c, false)) =
          (⟨p2, hz, c⟩, (List.range L).map (fun i =>
            if N < 2 * ((j + i) % N + 1) then (-1 : ℚ) else 1)) := by
  intro L
  induction L with
  | zero =>
      intro j p hj hp
      refine ⟨p, ?_, by simp [squareGo]⟩
      rw [Nat.add_zero, Nat.mod_eq_of_lt hj]
      exact hp
  | succ L ih =>
      intro j p hj hp
      have hp2 : (if p + hz > waveHz then p + hz - waveHz else p + hz) =
          ((j : ℚ) + 1) * hz := by
        rcases hp with hp | hpr
        · have hle : (j : ℚ) + 1 ≤ (N : ℚ) := by exact_mod_cast hj
          have hng : ¬ (p + hz > waveHz) := by
            rw [hp, hw]
            push_neg
            nlinarith
          rw [if_neg hng, hp]
          ring
        · obtain ⟨hj0, hpN⟩ := hpr
          have hg : p + hz > waveHz := by
            rw [hpN, hw]
            linarith
          rw [if_pos hg, hpN, hw, hj0]
          push_cast
          ring
      have hstep : squareStep waveHz exp2 ⟨p, hz, c⟩ c false =
          (⟨((j : ℚ) + 1) * hz, hz, c⟩,
            if ((j : ℚ) + 1) * hz > waveHz / 2 then (-1 : ℚ) else 1) := by
        rw [show squareStep waveHz exp2 ⟨p, hz, c⟩ c false =
            (⟨(if p + hz > waveHz then p + hz - waveHz else p + hz), hz, c⟩,
              if (if p + hz > waveHz then p + hz - waveHz else p + hz) >
                  waveHz / 2 then (-1 : ℚ) else 1) from by simp [squareStep]]
        rw [hp2]
      have hout : (((j : ℚ) + 1) * hz > waveHz / 2) ↔ (N < 2 * (j + 1)) := by
        rw [hw]
        constructor
        · intro hgt
          by_contra hle
          push_neg at hle
          have hle2 : ((2 * (j + 1) : ℕ) : ℚ) ≤ (N : ℚ) := by exact_mod_cast hle
          push_cast at hle2
          nlinarith
        · intro hlt
          have hlt2 : (N : ℚ) < 2 * ((j : ℚ) + 1) := by exact_mod_cast hlt
          nlinarith
      by_cases hjN : j + 1 < N
      · obtain ⟨p2, hinv, heq⟩ := ih (j + 1) (((j : ℚ) + 1) * hz) hjN
          (Or.inl (by push_cast; ring))
        refine ⟨p2, ?_, ?_⟩
        · have hmod : (j + 1 + L) % N = (j + (L + 1)) % N := by
            have h : j + 1 + L = j + (L + 1) := by omega
            rw [h]
          rw [← hmod]
          exact hinv
        · simp only [List.replicate_succ, squareGo]
          rw [hstep, heq]
          dsimp only
          rw [List.range_succ_eq_map, List.map_cons, List.map_map]
          have hhead : (if ((j : ℚ) + 1) * hz > waveHz / 2 then (-1 : ℚ) else 1) =
              (if N < 2 * ((j + 0) % N + 1) then (-1 : ℚ) else 1) := by
            have h1 : (j + 0) % N = j := by simp [Nat.mod_eq_of_lt hj]
            rw [h1]
            exact if_congr hout rfl rfl
          have htail : List.map
              (fun i => if N < 2 * ((j + 1 + i) % N + 1) then (-1 : ℚ) else 1)
              (List.range L) =
              List.map ((fun i =>
                if N < 2 * ((j + i) % N + 1) then (-1 : ℚ) else 1) ∘ Nat.succ)
              (List.range L) := by
            refine List.map_congr_left ?_
            intro i _
            simp only [Function.comp_apply]
            have hsh : j + Nat.succ i = j + 1 + i := by omega
            rw [hsh]
          rw [hhead, htail]
      · have hjN' : j + 1 = N := by omega
        obtain ⟨p2, hinv, heq⟩ := ih 0 (((j : ℚ) + 1) * hz) (by omega)
          (Or.inr ⟨rfl, by rw [← hjN']; push_cast; ring⟩)
        refine ⟨p2, ?_, ?_⟩
        · have hmod : (0 + L) % N = (j + (L + 1)) % N := by
            rw [Nat.zero_add, show j + (L + 1) = N + L by omega,
              Nat.add_mod_left]
          rw [← hmod]
          exact hinv
        · simp only [List.replicate_succ, squareGo]
          rw [hstep, heq]
          dsimp only
          rw [List.range_succ_eq_map, List.map_cons, List.map_map]
          have hhead : (if ((j : ℚ) + 1) * hz > waveHz / 2 then (-1 : ℚ) else 1) =
              (if N < 2 * ((j + 0) % N + 1) then (-1 : ℚ) else 1) := by
            have h1 : (j + 0) % N = j := by simp [Nat.mod_eq_of_lt hj]
            rw [h1]
            exact if_congr hout rfl rfl
          have htail : List.map
              (fun i => if N < 2 * ((0 + i) % N + 1) then (-1 : ℚ) else 1)
              (List.range L) =
              List.map ((fun i =>
                if N < 2 * ((j + i) % N + 1) then (-1 : ℚ) else 1) ∘ Nat.succ)
              (List.range L) := by
            refine List.map_congr_left ?_
            intro i _
            simp only [Function.comp_apply]
            have hsh : (j + Nat.succ i) % N = (0 + i) % N := by
              rw [show j + Nat.succ i = N + i from by omega, Nat.add_mod_left,
                Nat.zero_add]
            rw [hsh]
          rw [hhead, htail]

/- ------------------------------------------------------------------ -/
/- Claims -/
/- ------------------------------------------------------------------ -/

/-- Claim C8: every `Clip` output sample lies in `[-1, 1]`; an input
sample already in `[-1, 1]` passes through unchanged; and `Clip` is
idempotent on every sample. -/
theorem clip_range_passthrough_idem :
    (∀ s : List Sample, ∀ y ∈ Clip.Process s, -1 ≤ y ∧ y ≤ 1) ∧
    (∀ v : Sample, (-1 ≤ v → v ≤ 1 → clipSample v = v) ∧
      clipSample (clipSample v) = clipSample v) := by
  constructor
  · intro s y hy
    simp only [Clip.Process, List.mem_map] at hy
    obtain ⟨x, _, rfl⟩ := hy
    exact clipSample_range x
  · intro v
    constructor
    · intro h1 h2
      unfold clipSample
      split_ifs <;> first | rfl | linarith
    · unfold clipSample
      split_ifs <;> first | rfl | linarith

theorem clip_range_passthrough_idem_witness :
    ((1 : ℚ) ∈ Clip.Process [2, 5]) ∧ (-1 ≤ (1 : ℚ)) ∧ ((1 : ℚ) ≤ 1) ∧
    (-1 ≤ clipSample 1 ∧ clipSample 1 ≤ 1) ∧ clipSample 1 = 1 := by
  refine ⟨by norm_num [Clip.Process, clipSample], by norm_num, le_refl 1, ?_, ?_⟩
  · exact clip_range_passthrough_idem.1 [2, 5] 1 (by norm_num [Clip.Process, clipSample])
  · exact (clip_range_passthrough_idem.2 1).1 (by norm_num) (le_refl 1)

/-- Claim C9: for equal-length buffers, `Mul.Process` is elementwise
product and `Sum.Process` elementwise sum, with no clamping; summing a
buffer with its negation yields the zero buffer, and multiplying by an
all-ones buffer is the identity. -/
theorem mul_sum_elementwise (a b : List Sample) (hab : a.length = b.length) :
    (∀ i : ℕ, i < a.length →
      (Mul.Process a b).getD i 0 = a.getD i 0 * b.getD i 0 ∧
      (Sum.Process a b).getD i 0 = a.getD i 0 + b.getD i 0) ∧
    Sum.Process a (a.map (fun x => -x)) = List.replicate a.length 0 ∧
    Mul.Process a (List.replicate a.length 1) = a := by
  refine ⟨?_, ?_, ?_⟩
  · intro i hi
    have hib : i < b.length := hab ▸ hi
    have hm : i < (Mul.Process a b).length := by
      simp [Mul.Process, hab]
      omega
    have hs : i < (Sum.Process a b).length := by
      simp [Sum.Process, hab]
      omega
    constructor
    · rw [List.getD_eq_getElem _ _ hm, List.getD_eq_getElem _ _ hi,
        List.getD_eq_getElem _ _ hib]
      simp [Mul.Process]
    · rw [List.getD_eq_getElem _ _ hs, List.getD_eq_getElem _ _ hi,
        List.getD_eq_getElem _ _ hib]
      simp [Sum.Process]
  · exact sumProcess_neg_self a
  · exact mulProcess_ones a

theorem mul_sum_elementwise_witness :
    ([(2 : ℚ), 3].length = [(4 : ℚ), 5].length) ∧ (0 < [(2 : ℚ), 3].length) ∧
    ((Mul.Process [(2 : ℚ), 3] [4, 5]).getD 0 0 =
        ([(2 : ℚ), 3].getD 0 0) * ([(4 : ℚ), 5].getD 0 0) ∧
      (Sum.Process [(2 : ℚ), 3] [4, 5]).getD 0 0 =
        ([(2 : ℚ), 3].getD 0 0) + ([(4 : ℚ), 5].getD 0 0)) := by
  refine ⟨rfl, by norm_num, ?_⟩
  exact (mul_sum_elementwise [(2 : ℚ), 3] [4, 5] rfl).1 0 (by norm_num)

/-- Claim C10: every square-oscillator output sample is exactly `+1` or
exactly `-1`, for every phase state, pitch buffer (however far out of
range) and trigger classification. -/
theorem square_always_pm_one (waveHz : ℚ) (exp2 : ℚ → ℚ) (pos : ℚ)
    (pitch : List Sample) (trig : List Bool) (y : Sample)
    (hy : y ∈ (Square.Process waveHz exp2 pos pitch trig).2) :
    y = 1 ∨ y = -1 :=
  square_process_out_pm waveHz exp2 pos pitch trig y hy

/-- Claim C1: over the `Output.Process` calls between one `Dup.Tick` and
the next, the upstream source runs at most once — its final state is that
of exactly one `Process` invocation, however many calls are made — and
with more than one registered `Output` every call (given uniform buffer
lengths and a length-preserving source) leaves the caller's buffer holding
an identical copy of the single upstream evaluation. -/
theorem dup_single_upstream_eval {σ : Type}
    (src : σ → List Sample → σ × List Sample) (d : DupState σ)
    (p : List Sample) (ps : List (List Sample))
    (hlen : ∀ s b, (src s b).2.length = b.length) :
    (d.outs.length = 1 →
      processCalls src (Dup.Tick d) (p :: ps) =
        (⟨(src d.srcState p).1, d.outs, d.buf, true⟩,
          (src d.srcState p).2 :: ps)) ∧
    (1 < d.outs.length → p.length = d.buf.length →
      (∀ q ∈ ps, q.length = d.buf.length) →
      processCalls src (Dup.Tick d) (p :: ps) =
        (⟨(src d.srcState d.buf).1, d.outs, (src d.srcState d.buf).2, true⟩,
          List.replicate (ps.length + 1) (src d.srcState d.buf).2)) := by
  constructor
  · intro hm
    exact processCalls_fresh_single src (Dup.Tick d) rfl hm p ps
  · intro hm hp hps
    exact processCalls_fresh_multi src hlen (Dup.Tick d) rfl hm p ps hp hps

theorem dup_single_upstream_eval_witness :
    (∀ (s : Nat) (b : List Sample), (incSrc s b).2.length = b.length) ∧
    (1 < ([10, 20] : List Nat).length) ∧
    (([5, 5] : List Sample).length = ([0, 0] : List Sample).length) ∧
    processCalls incSrc (Dup.Tick ⟨0, [10, 20], [0, 0], true⟩)
        [[5, 5], [7, 7]] =
      (⟨(incSrc 0 [0, 0]).1, [10, 20], (incSrc 0 [0, 0]).2, true⟩,
        List.replicate (1 + 1) (incSrc 0 [0, 0]).2) := by
  have hl : ∀ (s : Nat) (b : List Sample), (incSrc s b).2.length = b.length := by
    intro s b; simp [incSrc]
  refine ⟨hl, by norm_num, rfl, ?_⟩
  exact (dup_single_upstream_eval incSrc ⟨0, [10, 20], [0, 0], true⟩ [5, 5]
    [[7, 7]] hl).2 (by norm_num) rfl
    (fun q hq => by
      rw [List.mem_singleton.mp hq]; rfl)

/-- Claim C7: `Output.Close` removes exactly the closed handle from the
`Dup`'s consumer list (the other handles stay registered), and after
closing, the remaining `Output`s' calls on a subsequent tick still satisfy
the fan-out contract: one upstream evaluation with the correct buffer
delivered to each remaining consumer.  Both remaining-count cases are
covered: with several remaining `Output`s, identical copies of the single
scratch-buffer evaluation; with exactly one remaining `Output` (closing
one consumer of a 2-consumer `Dup`), the dynamic fast path evaluates the
source once, directly into the remaining caller's buffer, and any further
call this tick is a no-op that leaves the caller's buffer untouched. -/
theorem output_close_correct {σ : Type}
    (src : σ → List Sample → σ × List Sample) (d : DupState σ) (o : Nat)
    (hlen : ∀ s b, (src s b).2.length = b.length)
    (ho : o ∈ d.outs) (hnd : d.outs.Nodup) :
    ((Output.Close d o).outs.length + 1 = d.outs.length ∧
      o ∉ (Output.Close d o).outs ∧
      (∀ x : Nat, x ≠ o → (x ∈ (Output.Close d o).outs ↔ x ∈ d.outs))) ∧
    (∀ (p : List Sample) (ps : List (List Sample)),
      1 < (Output.Close d o).outs.length →
      p.length = d.buf.length → (∀ q ∈ ps, q.length = d.buf.length) →
      processCalls src (Dup.Tick (Output.Close d o)) (p :: ps) =
        (⟨(src d.srcState d.buf).1, (Output.Close d o).outs,
            (src d.srcState d.buf).2, true⟩,
          List.replicate (ps.length + 1) (src d.srcState d.buf).2)) ∧
    (∀ (p : List Sample) (ps : List (List Sample)),
      (Output.Close d o).outs.length = 1 →
      processCalls src (Dup.Tick (Output.Close d o)) (p :: ps) =
        (⟨(src d.srcState p).1, (Output.Close d o).outs, d.buf, true⟩,
          (src d.srcState p).2 :: ps)) := by
  refine ⟨⟨removeFirst_length o d.outs ho, removeFirst_not_mem o d.outs hnd,
    fun x hx => removeFirst_mem_iff x o hx d.outs⟩, ?_, ?_⟩
  · intro p ps hm hp hps
    exact processCalls_fresh_multi src hlen (Dup.Tick (Output.Close d o)) rfl
      hm p ps hp hps
  · intro p ps hm
    exact processCalls_fresh_single src (Dup.Tick (Output.Close d o)) rfl hm
      p ps

theorem output_close_correct_witness :
    (∀ (s : Nat) (b : List Sample), (incSrc s b).2.length = b.length) ∧
    ((20 : Nat) ∈ ([10, 20] : List Nat)) ∧
    ([10, 20] : List Nat).Nodup ∧
    ((Output.Close (⟨0, [10, 20], [0, 0], false⟩ : DupState Nat)
        20).outs.length + 1 = ([10, 20] : List Nat).length ∧
      (20 : Nat) ∉ (Output.Close
        (⟨0, [10, 20], [0, 0], false⟩ : DupState Nat) 20).outs) ∧
    ((Output.Close (⟨0, [10, 20], [0, 0], false⟩ : DupState Nat)
        20).outs.length = 1) ∧
    processCalls incSrc
        (Dup.Tick (Output.Close (⟨0, [10, 20], [0, 0], false⟩ : DupState Nat)
          20)) [[5, 5], [7, 7]] =
      (⟨(incSrc 0 [5, 5]).1,
          (Output.Close (⟨0, [10, 20], [0, 0], false⟩ : DupState Nat) 20).outs,
          [0, 0], true⟩,
        (incSrc 0 [5, 5]).2 :: [[7, 7]]) := by
  have hl : ∀ (s : Nat) (b : List Sample), (incSrc s b).2.length = b.length := by
    intro s b; simp [incSrc]
  have ho : (20 : Nat) ∈ ([10, 20] : List Nat) := by norm_num
  have hnd : ([10, 20] : List Nat).Nodup := by norm_num
  have h1 : (Output.Close (⟨0, [10, 20], [0, 0], false⟩ : DupState Nat)
      20).outs.length = 1 := by
    simp [Output.Close, removeFirst]
  refine ⟨hl, ho, hnd, ?_, h1, ?_⟩
  · exact ⟨(output_close_correct incSrc ⟨0, [10, 20], [0, 0], false⟩ 20
      hl ho hnd).1.1,
      (output_close_correct incSrc ⟨0, [10, 20], [0, 0], false⟩ 20
        hl ho hnd).1.2.1⟩
  · exact (output_close_correct incSrc ⟨0, [10, 20], [0, 0], false⟩ 20
      hl ho hnd).2.2 [5, 5] [[7, 7]] h1

/-- Claim C4: from any level in `[0, 1]` and any combination of gate,
trigger, attack and decay inputs, each envelope step leaves the stored
level in `[0, 1]`, emits exactly the stored level, forces the level to
exactly 1 and clears the attack flag whenever the pre-clamp level exceeds
1, and every sample of a whole processed buffer stays in `[0, 1]`. -/
theorem env_level_unit_interval (waveHz : ℚ) (st : EnvState)
    (gate att dec : ℚ) (tr : Bool) (_h0 : 0 ≤ st.v) (_h1 : st.v ≤ 1) :
    (0 ≤ (envStep waveHz st gate att dec tr).1.v ∧
      (envStep waveHz st gate att dec tr).1.v ≤ 1) ∧
    (envStep waveHz st gate att dec tr).2 =
      (envStep waveHz st gate att dec tr).1.v ∧
    (1 < (envMove waveHz st gate att dec tr).v →
      (envStep waveHz st gate att dec tr).1.v = 1 ∧
      (envStep waveHz st gate att dec tr).1.up = false) ∧
    (∀ ins : List (ℚ × ℚ × ℚ × Bool),
      ∀ y ∈ (envGo waveHz st ins).2, 0 ≤ y ∧ y ≤ 1) := by
  refine ⟨envClamp_range _, rfl, ?_, fun ins => envGo_range waveHz ins st⟩
  intro hgt
  simp [envStep, envClamp, if_pos hgt]

theorem env_level_unit_interval_witness :
    (0 ≤ (1 : ℚ) / 2) ∧ ((1 : ℚ) / 2 ≤ 1) ∧
    (0 ≤ (envStep 10 ⟨1 / 2, false⟩ 1 1 1 false).1.v ∧
      (envStep 10 ⟨1 / 2, false⟩ 1 1 1 false).1.v ≤ 1) :=
  ⟨by norm_num, by norm_num,
    (env_level_unit_interval 10 ⟨1 / 2, false⟩ 1 1 1 false (by norm_num)
      (by norm_num)).1⟩

/-- Claim C5: when the envelope is not attacking, a trigger event or the
gate exceeding the current level enters the attack phase at that sample,
and the transition itself leaves the level unchanged — the pre-clamp level
is the incoming level plus only the attack increment (no reset to 0). -/
theorem env_enter_attack (waveHz : ℚ) (st : EnvState) (gate att dec : ℚ)
    (tr : Bool) (hup : st.up = false) (htr : tr = true ∨ st.v < gate) :
    (envMove waveHz st gate att dec tr).up = true ∧
    (envMove waveHz st gate att dec tr).v =
      st.v + (if att > 0 then 1 / (att * waveHz * 10) else 0) := by
  have hcond : (tr || decide (st.v < gate)) = true := by
    rcases htr with h | h <;> simp [h]
  constructor <;>
    · simp only [envMove, hup, Bool.not_false, if_true, hcond]
      split_ifs <;> simp

theorem env_enter_attack_witness :
    ((⟨1 / 2, false⟩ : EnvState).up = false) ∧
    (true = true ∨ (⟨1 / 2, false⟩ : EnvState).v < 1) ∧
    ((envMove 10 ⟨1 / 2, false⟩ 1 1 1 true).up = true ∧
      (envMove 10 ⟨1 / 2, false⟩ 1 1 1 true).v =
        (⟨1 / 2, false⟩ : EnvState).v +
          (if (1 : ℚ) > 0 then 1 / (1 * 10 * 10) else 0)) :=
  ⟨rfl, Or.inl rfl,
    env_enter_attack 10 ⟨1 / 2, false⟩ 1 1 1 true rfl (Or.inl rfl)⟩

/-- Claim C6 counterexample: at a triggered sample whose `min` and `max`
inputs are both 0 (and random draw 0), the newly latched value is 0, which
does not lie in the half-open interval `[min, max) = [0, 0)` — so the
drawn value does not always fall in `[min[i], max[i])`. -/
theorem rand_interval_counterexample :
    (randStep 5 0 0 0 true).1 = 0 ∧
    ¬ (0 ≤ (randStep 5 0 0 0 true).1 ∧ (randStep 5 0 0 0 true).1 < 0) := by
  norm_num [randStep]

/-- Claim C6 (amended): without a trigger the output equals the currently
latched value (so over a trigger-free stretch the output is constant), and
at a triggered sample the newly drawn value lies in `[min[i], max[i])`
provided the random draw lies in `[0, 1)` and `min[i] < max[i]`. -/
theorem rand_hold_and_draw_range (st minV maxV r : ℚ) :
    randStep st minV maxV r false = (st, st) ∧
    (∀ ins : List (ℚ × ℚ × ℚ × Bool), (∀ x ∈ ins, x.2.2.2 = false) →
      randGo st ins = (st, List.replicate ins.length st)) ∧
    (0 ≤ r → r < 1 → minV < maxV →
      minV ≤ (randStep st minV maxV r true).1 ∧
      (randStep st minV maxV r true).1 < maxV) := by
  refine ⟨rfl, randGo_no_trigger st, ?_⟩
  intro hr0 hr1 hmm
  have hv : (randStep st minV maxV r true).1 = minV + r * (maxV - minV) := by
    simp [randStep]
  rw [hv]
  constructor
  · nlinarith [mul_nonneg hr0 (sub_pos.mpr hmm).le]
  · nlinarith [mul_lt_mul_of_pos_right hr1 (sub_pos.mpr hmm)]

theorem rand_hold_and_draw_range_witness :
    (0 ≤ (0 : ℚ)) ∧ ((0 : ℚ) < 1) ∧ ((0 : ℚ) < 1) ∧
    (0 ≤ (randStep 7 0 1 0 true).1 ∧ (randStep 7 0 1 0 true).1 < 1) :=
  ⟨le_refl 0, by norm_num, by norm_num,
    (rand_hold_and_draw_range 7 0 1 0).2.2 (le_refl 0) (by norm_num)
      (by norm_num)⟩

theorem square_always_pm_one_witness :
    ((-1 : ℚ) ∈ (Square.Process 10 (fun _ => 1) 0 [0] [false]).2) ∧
    ((-1 : ℚ) = 1 ∨ (-1 : ℚ) = -1) := by
  have hmem : (-1 : ℚ) ∈ (Square.Process 10 (fun _ => 1) 0 [0] [false]).2 := by
    norm_num [Square.Process, squareGo, squareStep, sampleToHz]
  exact ⟨hmem, square_always_pm_one 10 (fun _ => 1) 0 [0] [false] (-1) hmem⟩

theorem square_process_const (waveHz hz : ℚ) (exp2 : ℚ → ℚ) (c : Sample)
    (N : ℕ) (hhz : sampleToHz exp2 c = hz) (h0 : 0 < hz) (hN : 1 ≤ N)
    (hw : waveHz = (N : ℚ) * hz) (L : ℕ) :
    (Square.Process waveHz exp2 0 (List.replicate L c)
      (List.replicate L false)).2 =
      (List.range L).map
        (fun i => if N < 2 * (i % N + 1) then (-1 : ℚ) else 1) := by
  cases L with
  | zero => rfl
  | succ L =>
      obtain ⟨p2, _, heq⟩ := squareGo_const_closed h0 hN hw (L + 1) 0 0
        (by omega) (Or.inl (by norm_num))
      rw [List.replicate_succ, List.replicate_succ]
      simp only [Square.Process]
      rw [List.zip_cons_cons, zip_replicate_same c false L, hhz,
        ← List.replicate_succ, heq]
      simp only [Nat.zero_add]

/-- Claim C2: with a constant pitch whose frequency `hz` divides the
sample rate as `waveHz = N * hz` (so the period `waveHz / hz` is `N`
samples) and no trigger, the square oscillator started at phase 0 emits a
sequence of exact `+1`/`-1` values that is `N`-periodic and, for `N ≥ 2`,
attains `+1` (at sample 0) and `-1` (at sample `N - 1`) in each period;
moreover a trigger at a sample resets the phase accumulator to 0 before
that sample's output is computed. -/
theorem square_const_pitch_periodic (waveHz hz : ℚ) (exp2 : ℚ → ℚ)
    (c : Sample) (N L : ℕ) (hhz : sampleToHz exp2 c = hz) (h0 : 0 < hz)
    (hN : 2 ≤ N) (hw : waveHz = (N : ℚ) * hz) :
    ((∀ n : ℕ, n + N < L →
        (Square.Process waveHz exp2 0 (List.replicate L c)
          (List.replicate L false)).2.getD (n + N) 0 =
        (Square.Process waveHz exp2 0 (List.replicate L c)
          (List.replicate L false)).2.getD n 0) ∧
      (∀ y ∈ (Square.Process waveHz exp2 0 (List.replicate L c)
          (List.replicate L false)).2, y = 1 ∨ y = -1) ∧
      (0 < L →
        (Square.Process waveHz exp2 0 (List.replicate L c)
          (List.replicate L false)).2.getD 0 0 = 1) ∧
      (N ≤ L →
        (Square.Process waveHz exp2 0 (List.replicate L c)
          (List.replicate L false)).2.getD (N - 1) 0 = -1)) ∧
    (∀ (st : OscLoopState) (sIn : Sample),
      squareStep waveHz exp2 st sIn true =
        squareStep waveHz exp2 ⟨0, st.hz, st.lastS⟩ sIn false) := by
  have hcf := square_process_const waveHz hz exp2 c N hhz h0 (by omega) hw L
  have hget : ∀ n : ℕ, n < L →
      (Square.Process waveHz exp2 0 (List.replicate L c)
        (List.replicate L false)).2.getD n 0 =
      (if N < 2 * (n % N + 1) then (-1 : ℚ) else 1) := by
    intro n hn
    rw [hcf, List.getD_eq_getElem _ _ (by simpa using hn), List.getElem_map,
      List.getElem_range]
  refine ⟨⟨?_, ?_, ?_, ?_⟩, ?_⟩
  · intro n hnN
    rw [hget (n + N) hnN, hget n (by omega), Nat.add_mod_right]
  · intro y hy
    exact square_process_out_pm waveHz exp2 0 _ _ y hy
  · intro hL
    rw [hget 0 hL, Nat.zero_mod]
    rw [if_neg (by omega)]
  · intro hNL
    rw [hget (N - 1) (by omega), Nat.mod_eq_of_lt (by omega)]
    rw [if_pos (by omega)]
  · intro st sIn
    simp [squareStep]

theorem square_const_pitch_periodic_witness :
    (sampleToHz (fun _ => 1) 0 = 440) ∧ ((0 : ℚ) < 440) ∧ (2 ≤ 4) ∧
    ((1760 : ℚ) = ((4 : ℕ) : ℚ) * 440) ∧ (0 < 8) ∧
    (Square.Process 1760 (fun _ => 1) 0 (List.replicate 8 0)
      (List.replicate 8 false)).2.getD 0 0 = 1 :=
  ⟨by norm_num [sampleToHz], by norm_num, by norm_num, by norm_num,
    by norm_num,
    (square_const_pitch_periodic 1760 440 (fun _ => 1) 0 4 8
      (by norm_num [sampleToHz]) (by norm_num) (by norm_num)
      (by norm_num)).1.2.2.1 (by norm_num)⟩

/-- Claim C3 counterexample: with pitch buffer `[0, 1, 0]` (no triggers),
the pitch at sample 2 differs from the pitch at sample 1, yet the square
oscillator does NOT recompute `hz` from the pitch at sample 2 — it reuses
the `hz` computed at sample 1 (the loop's `lastS` is pinned to `s[0]`, so
a pitch equal to the buffer's first sample never forces a recompute).
With `exp2` sending `0 ↦ 1/110` and other inputs to `7/440`, the `hz`
used at sample 2 is `7`, not `sampleToHz` of the pitch there, which
is `4`. -/
theorem hz_prev_sample_counterexample :
    ¬ (∀ (waveHz : ℚ) (exp2 : ℚ → ℚ) (pos : ℚ) (pitch : List Sample)
        (trig : List Bool) (i : ℕ), 0 < i →
        i < (Square.hzTrace waveHz exp2 pos pitch trig).length →
        pitch.getD i 0 ≠ pitch.getD (i - 1) 0 →
        (Square.hzTrace waveHz exp2 pos pitch trig).getD i 0 =
          sampleToHz exp2 (pitch.getD i 0)) := by
  intro h
  have h2 := h 10 (fun q => if q = 0 then 1 / 110 else 7 / 440) 0 [0, 1, 0]
    [false, false, false] 2 (by norm_num)
    (by norm_num [Square.hzTrace, squareHzGo, squareStep, sampleToHz])
    (by norm_num)
  norm_num [Square.hzTrace, squareHzGo, squareStep, sampleToHz] at h2

/-- Claim C3 (amended): in both oscillators' loops the `hz` used at
sample `i` is recomputed as `sampleToHz(pitch[i])` exactly when `pitch[i]`
differs from the FIRST sample of the current buffer (not the previous
sample), and otherwise the `hz` used at sample `i - 1` is reused
unchanged, starting from `sampleToHz(pitch[0])`. -/
theorem osc_hz_from_first (waveHz : ℚ) (exp2 sinF : ℚ → ℚ)
    (piQ posQ posS : ℚ) (s0 : Sample) (ss : List Sample) (trig : List Bool)
    (hlen : trig.length = (s0 :: ss).length) :
    Square.hzTrace waveHz exp2 posQ (s0 :: ss) trig =
      hzFromFirstSpec exp2 s0 (sampleToHz exp2 s0) (s0 :: ss) ∧
    Sin.hzTrace waveHz exp2 sinF piQ posS (s0 :: ss) trig =
      hzFromFirstSpec exp2 s0 (sampleToHz exp2 s0) (s0 :: ss) := by
  have hmap : ((s0 :: ss).zip trig).map Prod.fst = s0 :: ss :=
    List.map_fst_zip _ _ (by rw [hlen])
  constructor
  · show squareHzGo waveHz exp2 ⟨posQ, sampleToHz exp2 s0, s0⟩
      ((s0 :: ss).zip trig) = _
    rw [squareHzGo_spec waveHz exp2 s0 _ ⟨posQ, sampleToHz exp2 s0, s0⟩ rfl,
      hmap]
  · show sinHzGo waveHz exp2 sinF piQ ⟨posS, sampleToHz exp2 s0, s0⟩
      ((s0 :: ss).zip trig) = _
    rw [sinHzGo_spec waveHz exp2 sinF piQ s0 _ ⟨posS, sampleToHz exp2 s0, s0⟩
      rfl, hmap]

theorem osc_hz_from_first_witness :
    (([false] : List Bool).length = ([(0 : ℚ)] : List Sample).length) ∧
    (Square.hzTrace 1 (fun _ => 1) 0 [(0 : ℚ)] [false] =
      hzFromFirstSpec (fun _ => 1) 0 (sampleToHz (fun _ => 1) 0) [(0 : ℚ)] ∧
    Sin.hzTrace 1 (fun _ => 1) (fun _ => 0) 3 0 [(0 : ℚ)] [false] =
      hzFromFirstSpec (fun _ => 1) 0 (sampleToHz (fun _ => 1) 0) [(0 : ℚ)]) :=
  ⟨rfl, osc_hz_from_first 1 (fun _ => 1) (fun _ => 0) 3 0 0 0 [] [false] rfl⟩

end Sigourney
